import Mathlib

/-!
Shallow embedding of the `LazyRc` lazy reference-counted handle
(`src/lib.rs`).

The Rust type is
  struct LazyRc<T: ?Sized> { data: NonNull<T>, share_count: Cell<*const Cell<usize>> }

We model the heap explicitly: `Mem α` holds the data allocations (each a
slot that is `some v` while live and `none` once freed) and the counter
cells (`Cell<usize>` allocations).  Pointers are indices into these
lists; a list only grows on allocation, so `length` counts allocations
ever performed.  `dataDrops` counts how many times a data allocation's
destructor ran, `counterDrops` the same for counter cells.

A handle is a record of its two fields: `data` is the pointer into the
data heap (`NonNull`, hence not an `Option`), and `share_count` models
the nullable raw pointer `*const Cell<usize>` as `Option Ptr`
(`none` = null = Unshared).

Reads of freed memory are undefined behaviour in the source, so the
operations that read the heap return `Option`: `none` marks a UB
execution, which the reachability invariant later rules out.
-/

abbrev Ptr := Nat

/-- The explicit heap: data allocations and counter-cell allocations,
plus destructor/free counters. -/
structure Mem (α : Type) where
  data : List (Option α)
  counters : List (Option Nat)
  dataDrops : Nat
  counterDrops : Nat
deriving DecidableEq, Repr

def Mem.empty (α : Type) : Mem α :=
  { data := [], counters := [], dataDrops := 0, counterDrops := 0 }

/-- Allocate a data slot holding `v` (models `Box::new`). -/
def Mem.allocData (m : Mem α) (v : α) : Ptr × Mem α :=
  (m.data.length, { m with data := m.data ++ [some v] })

/-- Read a data slot; `none` when the pointer is dangling or the slot freed. -/
def Mem.readData (m : Mem α) (p : Ptr) : Option α :=
  (m.data.getD p none)

/-- Free a data slot, running the destructor (models `Box::from_raw` + drop).
Freeing a dead slot is UB, hence `none`. -/
def Mem.freeData (m : Mem α) (p : Ptr) : Option (Mem α) :=
  match m.readData p with
  | some _ => some { m with data := m.data.set p none, dataDrops := m.dataDrops + 1 }
  | none => none

/-- Allocate a counter cell initialized to `n` (models `Box::new(Cell::new(n))`). -/
def Mem.allocCounter (m : Mem α) (n : Nat) : Ptr × Mem α :=
  (m.counters.length, { m with counters := m.counters ++ [some n] })

/-- Read a counter cell (models `Cell::get`); `none` when freed/dangling. -/
def Mem.readCounter (m : Mem α) (c : Ptr) : Option Nat :=
  (m.counters.getD c none)

/-- Write a counter cell (models `Cell::set`).  Only reached after a
successful read in every operation below. -/
def Mem.writeCounter (m : Mem α) (c : Ptr) (n : Nat) : Mem α :=
  { m with counters := m.counters.set c (some n) }

/-- Free a counter cell (models `Box::from_raw(counter)` being dropped). -/
def Mem.freeCounter (m : Mem α) (c : Ptr) : Option (Mem α) :=
  match m.readCounter c with
  | some _ => some { m with counters := m.counters.set c none,
                            counterDrops := m.counterDrops + 1 }
  | none => none

/-- The handle: `data: NonNull<T>` and `share_count: Cell<*const Cell<usize>>`,
with the null pointer modelled as `none`. -/
structure LazyRc where
  data : Ptr
  share_count : Option Ptr
deriving DecidableEq, Repr

/-- Model of `LazyRc::new(inner: Box<T>)`: wrap an already-allocated box (pointer `p`);
`share_count` starts null.  Touches no memory. -/
def LazyRc.new (p : Ptr) : LazyRc :=
  { data := p, share_count := none }

/-- Composition of `Box::new(v)` followed by `LazyRc::new`: allocate the data, wrap it. -/
def newBoxed (v : α) (m : Mem α) : LazyRc × Mem α :=
  let pm := m.allocData v
  (LazyRc.new pm.1, pm.2)

/-- Model of `Deref for LazyRc`: `unsafe { self.data.as_ref() }`. -/
def LazyRc.deref (self : LazyRc) (m : Mem α) : Option α :=
  m.readData self.data

/-- Model of `Clone for LazyRc`: if the counter pointer is non-null, increment the
counter; otherwise allocate a fresh counter at 2 and store its pointer into
`self.share_count` (a `Cell`, so the original handle itself is updated).
Returns (updated original, new handle, new memory). -/
def LazyRc.clone (self : LazyRc) (m : Mem α) :
    Option (LazyRc × LazyRc × Mem α) :=
  match self.share_count with
  | some c =>
    match m.readCounter c with
    | some n =>
      some (self, { data := self.data, share_count := some c },
            m.writeCounter c (n + 1))
    | none => none
  | none =>
    let qm := m.allocCounter 2
    some ({ data := self.data, share_count := some qm.1 },
          { data := self.data, share_count := some qm.1 }, qm.2)

/-- Model of `Drop for LazyRc`: null counter pointer means sole owner, free the data;
otherwise read the count: if above 1 just decrement, else free the counter
allocation and then the data. -/
def LazyRc.drop (self : LazyRc) (m : Mem α) : Option (Mem α) :=
  match self.share_count with
  | some c =>
    match m.readCounter c with
    | some n =>
      if n > 1 then
        some (m.writeCounter c (n - 1))
      else
        match m.freeCounter c with
        | some m1 => m1.freeData self.data
        | none => none
    | none => none
  | none => m.freeData self.data

/-- A formatter, as a growing output buffer (models `std::fmt::Formatter`). -/
structure Formatter where
  buf : String
deriving DecidableEq, Repr

/-- Model of `Debug for LazyRc`: `Debug::fmt(&**self, f)` — dereference, then hand the
wrapped value to the wrapped type's own formatter `fmtT`. -/
def LazyRc.fmtDebug (fmtT : α → Formatter → Option Formatter)
    (self : LazyRc) (m : Mem α) (f : Formatter) : Option Formatter :=
  (self.deref m).bind (fun v => fmtT v f)

/-- Model of `Display for LazyRc`: `Display::fmt(&**self, f)`. -/
def LazyRc.fmtDisplay (fmtT : α → Formatter → Option Formatter)
    (self : LazyRc) (m : Mem α) (f : Formatter) : Option Formatter :=
  (self.deref m).bind (fun v => fmtT v f)

/-- A `Vec<T>`: element list plus (over-)allocated capacity. -/
structure RVec (α : Type) where
  elems : List α
  cap : Nat
deriving DecidableEq, Repr

/-- Model of `Vec::into_boxed_slice`: shrink to an exact-size allocation,
keeping the elements. -/
def RVec.into_boxed_slice (v : RVec α) : List α := v.elems

/-- A `String`: character data plus (over-)allocated capacity. -/
structure RString where
  chars : String
  cap : Nat
deriving DecidableEq, Repr

/-- Model of `String::into_boxed_str`: shrink to an exact-size allocation,
keeping the text. -/
def RString.into_boxed_str (s : RString) : String := s.chars

/-- Model of `From<Box<T>> for LazyRc<T>`: `Self::new(value)`. -/
def fromBox (p : Ptr) : LazyRc := LazyRc.new p

/-- Model of `From<Vec<T>> for LazyRc<[T]>`: `Self::new(value.into_boxed_slice())`. -/
def fromVec (v : RVec α) (m : Mem (List α)) : LazyRc × Mem (List α) :=
  newBoxed v.into_boxed_slice m

/-- Model of `From<String> for LazyRc<str>`: `Self::new(value.into_boxed_str())`. -/
def fromString (s : RString) (m : Mem String) : LazyRc × Mem String :=
  newBoxed s.into_boxed_str m

/-!
System-level model: a *family* of live handles over a shared heap.
`clones` and `drops` are ghost counters of how many duplications and
destructions have been performed. -/

structure Sys (α : Type) where
  mem : Mem α
  handles : List LazyRc
  clones : Nat
  drops : Nat
deriving DecidableEq, Repr

/-- The initial family: one freshly constructed handle over an empty heap. -/
def Sys.init (v : α) : Sys α :=
  let hm := newBoxed v (Mem.empty α)
  { mem := hm.2, handles := [hm.1], clones := 0, drops := 0 }

/-- Duplicate the `i`-th live handle.  `clone` may update the chosen
handle in place (its `share_count` cell); the fresh handle is appended. -/
def Sys.cloneAt (s : Sys α) (i : Nat) : Option (Sys α) :=
  match s.handles[i]? with
  | some h =>
    match h.clone s.mem with
    | some r =>
      some { mem := r.2.2, handles := (s.handles.set i r.1) ++ [r.2.1],
             clones := s.clones + 1, drops := s.drops }
    | none => none
  | none => none

/-- Destroy the `i`-th live handle. -/
def Sys.dropAt (s : Sys α) (i : Nat) : Option (Sys α) :=
  match s.handles[i]? with
  | some h =>
    match h.drop s.mem with
    | some m1 =>
      some { mem := m1, handles := s.handles.eraseIdx i,
             clones := s.clones, drops := s.drops + 1 }
    | none => none
  | none => none

/-- One step of the family: duplicate some live handle or destroy one. -/
inductive Step : Sys α → Sys α → Prop where
  | clone (s s' : Sys α) (i : Nat) : s.cloneAt i = some s' → Step s s'
  | drop (s s' : Sys α) (i : Nat) : s.dropAt i = some s' → Step s s'

/-- States reachable from a single construction by any interleaving of
duplications and destructions. -/
inductive Reach (v : α) : Sys α → Prop where
  | init : Reach v (Sys.init v)
  | step {s s' : Sys α} : Reach v s → Step s s' → Reach v s'

/-- Phase 1: never duplicated.  A single handle with a null counter
pointer; no counter allocation exists. -/
def PhaseU (v : α) (s : Sys α) : Prop :=
  s.clones = 0 ∧ (∃ h, s.handles = [h] ∧ h.share_count = none) ∧
  s.mem.counters = [] ∧ s.mem.data = [some v] ∧ s.mem.dataDrops = 0 ∧
  s.mem.counterDrops = 0

/-- Phase 2: duplicated at least once, some members still live.  All live
handles point at the one counter cell, whose value is the live count. -/
def PhaseS (v : α) (s : Sys α) : Prop :=
  1 ≤ s.clones ∧ s.handles ≠ [] ∧
  (∀ h ∈ s.handles, h.share_count = some 0) ∧
  s.mem.counters = [some s.handles.length] ∧ s.mem.data = [some v] ∧
  s.mem.dataDrops = 0 ∧ s.mem.counterDrops = 0

/-- Phase 3: every member destroyed.  The data was freed exactly once and
the counter cell, if it was ever allocated, was freed exactly once. -/
def PhaseD (s : Sys α) : Prop :=
  s.handles = [] ∧ s.mem.data = [none] ∧ s.mem.dataDrops = 1 ∧
  ((s.clones = 0 ∧ s.mem.counters = [] ∧ s.mem.counterDrops = 0) ∨
   (1 ≤ s.clones ∧ s.mem.counters = [none] ∧ s.mem.counterDrops = 1))

/-- The inductive invariant of a family. -/
def FamInv (v : α) (s : Sys α) : Prop :=
  s.handles.length + s.drops = s.clones + 1 ∧
  (∀ h ∈ s.handles, h.data = 0) ∧
  (PhaseU v s ∨ PhaseS v s ∨ PhaseD s)

theorem famInv_init (v : α) : FamInv v (Sys.init v) := by
  refine ⟨rfl, ?_, Or.inl ?_⟩
  · intro h hmem
    simp only [Sys.init, newBoxed, Mem.empty, Mem.allocData, LazyRc.new,
      List.mem_singleton] at hmem
    simp [hmem]
  · exact ⟨rfl, ⟨LazyRc.new 0, rfl, rfl⟩, rfl, rfl, rfl, rfl⟩

theorem famInv_cloneAt {v : α} {s s' : Sys α} {i : Nat}
    (hinv : FamInv v s) (hc : s.cloneAt i = some s') : FamInv v s' := by
  obtain ⟨hlen, hdat, hphase⟩ := hinv
  unfold Sys.cloneAt at hc
  cases hget : s.handles[i]? with
  | none => rw [hget] at hc; exact absurd hc (by simp)
  | some h =>
    rw [hget] at hc
    have hmem : h ∈ s.handles := List.getElem?_mem hget
    cases hsc : h.share_count with
    | none =>
      -- first duplication: fresh counter cell at 2, original transitions
      rcases hphase with hU | hS | hD
      · obtain ⟨hc0, ⟨h0, hh0, hsc0⟩, hcnt, hdata, hdd, hcd⟩ := hU
        have hd0 : h.data = 0 := hdat h hmem
        have hi0 : i = 0 := by
          by_contra hne
          rw [hh0] at hget
          rcases Nat.exists_eq_succ_of_ne_zero hne with ⟨j, rfl⟩
          simp at hget
        subst hi0
        rw [hh0] at hget hlen
        simp only [LazyRc.clone, hsc, Mem.allocCounter, hcnt, hh0, hd0,
          List.length_nil, List.nil_append, List.set_cons_zero,
          List.cons_append, List.singleton_append] at hc
        obtain rfl := (Option.some.inj hc)
        refine ⟨?_, ?_, Or.inr (Or.inl ?_)⟩
        · simp only [List.length_cons, List.length_singleton] at hlen ⊢
          omega
        · intro x hx
          simp only [List.mem_cons, List.mem_singleton, List.not_mem_nil,
            or_false] at hx
          rcases hx with hx | hx <;> simp [hx]
        · refine ⟨?_, by simp, ?_, rfl, hdata, hdd, hcd⟩
          · show 1 ≤ s.clones + 1
            omega
          · intro x hx
            simp only [List.mem_cons, List.mem_singleton, List.not_mem_nil,
              or_false] at hx
            rcases hx with hx | hx <;> simp [hx]
      · exact absurd (hS.2.2.1 h hmem) (by rw [hsc]; simp)
      · rw [hD.1] at hget; simp at hget
    | some c =>
      -- later duplication: increment the shared counter
      rcases hphase with hU | hS | hD
      · obtain ⟨_, ⟨h0, hh0, hsc0⟩, _, _, _, _⟩ := hU
        rw [hh0] at hmem
        rw [List.mem_singleton.mp hmem] at hsc
        rw [hsc0] at hsc
        exact absurd hsc (by simp)
      · obtain ⟨hc1, hne, hall, hcnt, hdata, hdd, hcd⟩ := hS
        have hc0 : c = 0 := by
          have h2 := hall h hmem
          rw [hsc] at h2
          simpa using h2
        subst hc0
        have hread : s.mem.readCounter 0 = some s.handles.length := by
          simp [Mem.readCounter, hcnt]
        simp only [LazyRc.clone, hsc, hread] at hc
        obtain rfl := (Option.some.inj hc)
        refine ⟨?_, ?_, Or.inr (Or.inl ?_)⟩
        · simp only [List.length_append, List.length_set, List.length_singleton]
          omega
        · intro x hx
          rcases List.mem_append.mp hx with hx | hx
          · rcases List.mem_or_eq_of_mem_set hx with hx | hx
            · exact hdat x hx
            · rw [hx]; exact hdat h hmem
          · rw [List.mem_singleton.mp hx]; exact hdat h hmem
        · refine ⟨?_, by simp, ?_, ?_, hdata, hdd, hcd⟩
          · show 1 ≤ s.clones + 1
            omega
          · intro x hx
            rcases List.mem_append.mp hx with hx | hx
            · rcases List.mem_or_eq_of_mem_set hx with hx | hx
              · exact hall x hx
              · rw [hx]; exact hall h hmem
            · rw [List.mem_singleton.mp hx]
          · show (s.mem.writeCounter 0 (s.handles.length + 1)).counters = _
            simp [Mem.writeCounter, hcnt]
      · rw [hD.1] at hget; simp at hget

theorem famInv_dropAt {v : α} {s s' : Sys α} {i : Nat}
    (hinv : FamInv v s) (hc : s.dropAt i = some s') : FamInv v s' := by
  obtain ⟨hlen, hdat, hphase⟩ := hinv
  unfold Sys.dropAt at hc
  cases hget : s.handles[i]? with
  | none => rw [hget] at hc; exact absurd hc (by simp)
  | some h =>
    rw [hget] at hc
    have hmem : h ∈ s.handles := List.getElem?_mem hget
    have hi : i < s.handles.length := by
      by_contra hge
      rw [List.getElem?_eq_none (Nat.le_of_not_lt hge)] at hget
      exact absurd hget (by simp)
    cases hsc : h.share_count with
    | none =>
      -- sole owner: free the data directly
      rcases hphase with hU | hS | hD
      · obtain ⟨hc0, ⟨h0, hh0, hsc0⟩, hcnt, hdata, hdd, hcd⟩ := hU
        have hd0 : h.data = 0 := hdat h hmem
        have hi0 : i = 0 := by
          by_contra hne
          rw [hh0] at hget
          rcases Nat.exists_eq_succ_of_ne_zero hne with ⟨j, rfl⟩
          simp at hget
        subst hi0
        rw [hh0] at hget hlen
        simp only [LazyRc.drop, hsc, Mem.freeData, Mem.readData, hdata, hdd,
          hd0, hh0, List.getD_cons_zero, List.set_cons_zero,
          List.eraseIdx_cons_zero] at hc
        obtain rfl := (Option.some.inj hc)
        refine ⟨?_, by simp, Or.inr (Or.inr ?_)⟩
        · simp only [List.length_cons, List.length_nil, List.length_singleton]
            at hlen ⊢
          omega
        · exact ⟨rfl, rfl, rfl, Or.inl ⟨hc0, hcnt, hcd⟩⟩
      · exact absurd (hS.2.2.1 h hmem) (by rw [hsc]; simp)
      · rw [hD.1] at hget; simp at hget
    | some c =>
      -- shared: decrement, or free counter and data when last
      rcases hphase with hU | hS | hD
      · obtain ⟨_, ⟨h0, hh0, hsc0⟩, _, _, _, _⟩ := hU
        rw [hh0] at hmem
        rw [List.mem_singleton.mp hmem] at hsc
        rw [hsc0] at hsc
        exact absurd hsc (by simp)
      · obtain ⟨hc1, hne, hall, hcnt, hdata, hdd, hcd⟩ := hS
        have hc0 : c = 0 := by
          have h2 := hall h hmem
          rw [hsc] at h2
          simpa using h2
        subst hc0
        have hread : s.mem.readCounter 0 = some s.handles.length := by
          simp [Mem.readCounter, hcnt]
        by_cases hL : 1 < s.handles.length
        · -- another member still lives: just decrement
          simp only [LazyRc.drop, hsc, hread, if_pos hL] at hc
          obtain rfl := (Option.some.inj hc)
          have hlen' : (s.handles.eraseIdx i).length = s.handles.length - 1 :=
            List.length_eraseIdx_of_lt hi
          refine ⟨?_, ?_, Or.inr (Or.inl ?_)⟩
          · simp only [hlen']
            omega
          · intro x hx
            exact hdat x (List.mem_of_mem_eraseIdx hx)
          · refine ⟨hc1, ?_, ?_, ?_, hdata, hdd, hcd⟩
            · have : 0 < (s.handles.eraseIdx i).length := by omega
              exact List.length_pos.mp this
            · intro x hx
              exact hall x (List.mem_of_mem_eraseIdx hx)
            · show (s.mem.writeCounter 0 (s.handles.length - 1)).counters = _
              simp [Mem.writeCounter, hcnt, hlen']
        · -- last member: free the counter, then the data
          have hL1 : s.handles.length = 1 := by omega
          obtain ⟨a, ha⟩ := List.length_eq_one.mp hL1
          have hi0 : i = 0 := by omega
          subst hi0
          rw [ha] at hget
          have hha : h = a := by simpa using hget.symm
          subst hha
          rw [hL1] at hread hcnt hlen
          have hd0 : h.data = 0 := hdat h hmem
          simp only [LazyRc.drop, hsc, hread, if_neg (Nat.lt_irrefl 1),
            Mem.freeCounter, Mem.readCounter, hcnt, List.getD_cons_zero,
            List.set_cons_zero, Mem.freeData, Mem.readData, hdata, hdd, hcd,
            hd0, ha, List.eraseIdx_cons_zero] at hc
          obtain rfl := (Option.some.inj hc)
          refine ⟨?_, by simp, Or.inr (Or.inr ?_)⟩
          · simp only [List.length_nil]
            omega
          · exact ⟨rfl, rfl, rfl, Or.inr ⟨hc1, rfl, rfl⟩⟩
      · rw [hD.1] at hget; simp at hget

theorem famInv_step {v : α} {s s' : Sys α}
    (hinv : FamInv v s) (hstep : Step s s') : FamInv v s' := by
  cases hstep with
  | clone i hc => exact famInv_cloneAt hinv hc
  | drop i hc => exact famInv_dropAt hinv hc

/-- Every reachable family state satisfies the invariant. -/
theorem reach_famInv {v : α} {s : Sys α} (hr : Reach v s) : FamInv v s := by
  induction hr with
  | init => exact famInv_init v
  | step _ hstep ih => exact famInv_step ih hstep

/-! Concrete reachable states used to instantiate the theorems below. -/

/-- The family over `37` right after its first duplication. -/
def exShared : Sys Nat :=
  { mem := { data := [some 37], counters := [some 2], dataDrops := 0,
             counterDrops := 0 },
    handles := [{ data := 0, share_count := some 0 },
                { data := 0, share_count := some 0 }],
    clones := 1, drops := 0 }

theorem exShared_reach : Reach 37 exShared :=
  Reach.step Reach.init (Step.clone _ _ 0 (by decide))

/-- The family over `37` with its only handle destroyed without duplication. -/
def exDead : Sys Nat :=
  { mem := { data := [none], counters := [], dataDrops := 1, counterDrops := 0 },
    handles := [], clones := 0, drops := 1 }

theorem exDead_reach : Reach 37 exDead :=
  Reach.step Reach.init (Step.drop _ _ 0 (by decide))

/-- C1: for a family built by one construction and any number of duplications,
destroyed in any order, the wrapped value's destructor runs exactly once,
after the last destruction: in every reachable state the destructor has run
0 times while a member is live and exactly once when none is. -/
theorem spec_C1_finalizer_exactly_once {v : α} {s : Sys α} (hr : Reach v s) :
    s.mem.dataDrops = (if s.handles = [] then 1 else 0) := by
  obtain ⟨-, -, hphase⟩ := reach_famInv hr
  rcases hphase with hU | hS | hD
  · obtain ⟨-, ⟨h, hh, -⟩, -, -, hdd, -⟩ := hU
    rw [hdd, hh]
    simp
  · obtain ⟨-, hne, -, -, -, hdd, -⟩ := hS
    rw [hdd, if_neg hne]
  · rw [hD.2.2.1, if_pos hD.1]

theorem spec_C1_finalizer_exactly_once_witness :
    Reach 37 exDead ∧
    exDead.mem.dataDrops = (if exDead.handles = [] then 1 else 0) :=
  ⟨exDead_reach, spec_C1_finalizer_exactly_once exDead_reach⟩

/-- C2: in a family with at least one duplication (K clones, J drops,
J < K+1), the shared counter cell reads exactly the number of live handles,
which is K+1-J; in particular it reads 2 right after the first duplication. -/
theorem spec_C2_counter_correct {v : α} {s : Sys α} (hr : Reach v s)
    (hK : 1 ≤ s.clones) (hJ : s.drops < s.clones + 1) :
    s.mem.readCounter 0 = some s.handles.length ∧
    (∀ h ∈ s.handles, h.share_count = some 0) ∧
    s.handles.length = s.clones + 1 - s.drops := by
  obtain ⟨hlen, -, hphase⟩ := reach_famInv hr
  rcases hphase with hU | hS | hD
  · rw [hU.1] at hK
    exact absurd hK (by simp)
  · obtain ⟨-, -, hall, hcnt, -, -, -⟩ := hS
    refine ⟨by simp [Mem.readCounter, hcnt], hall, by omega⟩
  · rw [hD.1] at hlen
    simp only [List.length_nil, Nat.zero_add] at hlen
    omega

theorem spec_C2_counter_correct_witness :
    (Reach 37 exShared ∧ 1 ≤ exShared.clones ∧
      exShared.drops < exShared.clones + 1) ∧
    (exShared.mem.readCounter 0 = some exShared.handles.length ∧
      (∀ h ∈ exShared.handles, h.share_count = some 0) ∧
      exShared.handles.length = exShared.clones + 1 - exShared.drops) :=
  ⟨⟨exShared_reach, by decide, by decide⟩,
    spec_C2_counter_correct exShared_reach (by decide) (by decide)⟩

/-- C5: the counter allocation is lazy.  Construction yields an Unshared
handle and allocates no counter; across any reachable family history the
number of counter cells ever allocated is 0 when no duplication has happened
and exactly 1 as soon as any has (so the first duplication allocates the one
cell and later duplications allocate nothing). -/
theorem spec_C5_lazy_counter_alloc (v : α) (m : Mem α)
    {w : β} {s : Sys β} (hr : Reach w s) :
    (newBoxed v m).1.share_count = none ∧
    (newBoxed v m).2.counters = m.counters ∧
    s.mem.counters.length = min s.clones 1 := by
  refine ⟨rfl, rfl, ?_⟩
  obtain ⟨-, -, hphase⟩ := reach_famInv hr
  rcases hphase with hU | hS | hD
  · rw [hU.2.2.1, hU.1]
    simp
  · obtain ⟨hc1, -, -, hcnt, -, -, -⟩ := hS
    rw [hcnt]
    simp only [List.length_singleton]
    omega
  · rcases hD.2.2.2 with ⟨hc0, hcnt, -⟩ | ⟨hc1, hcnt, -⟩
    · rw [hcnt, hc0]
      simp
    · rw [hcnt]
      simp only [List.length_singleton]
      omega

theorem spec_C5_lazy_counter_alloc_witness :
    ((newBoxed (5:Nat) (Mem.empty Nat)).1.share_count = none ∧
      (newBoxed (5:Nat) (Mem.empty Nat)).2.counters = (Mem.empty Nat).counters ∧
      exShared.mem.counters.length = min exShared.clones 1) ∧
    Reach 37 exShared :=
  ⟨spec_C5_lazy_counter_alloc 5 (Mem.empty Nat) exShared_reach, exShared_reach⟩

/-- C6: dereference succeeds on every live handle of every reachable family
state, returning the wrapped value; the data pointer is the one established
at construction (slot 0) and is never reassigned by any operation. -/
theorem spec_C6_deref_total {v : α} {s : Sys α} (hr : Reach v s) :
    ∀ h ∈ s.handles, h.data = 0 ∧ h.deref s.mem = some v := by
  obtain ⟨-, hdat, hphase⟩ := reach_famInv hr
  intro h hmem
  refine ⟨hdat h hmem, ?_⟩
  rcases hphase with hU | hS | hD
  · obtain ⟨-, -, -, hdata, -, -⟩ := hU
    simp [LazyRc.deref, Mem.readData, hdat h hmem, hdata]
  · obtain ⟨-, -, -, -, hdata, -, -⟩ := hS
    simp [LazyRc.deref, Mem.readData, hdat h hmem, hdata]
  · rw [hD.1] at hmem
    simp at hmem

theorem spec_C6_deref_total_witness :
    Reach 37 exShared ∧
    ∀ h ∈ exShared.handles, h.data = 0 ∧ h.deref exShared.mem = some 37 :=
  ⟨exShared_reach, spec_C6_deref_total exShared_reach⟩

/-! Helper lemmas about the heap primitives. -/

theorem lt_length_of_getElem_eq_some {l : List γ} {i : Nat} {a : γ}
    (h : l[i]? = some a) : i < l.length :=
  (List.getElem?_eq_some_iff.mp h).1

theorem readCounter_some {m : Mem α} {c : Ptr} {n : Nat}
    (h : m.readCounter c = some n) :
    c < m.counters.length ∧ m.counters[c]? = some (some n) := by
  unfold Mem.readCounter at h
  rw [List.getD_eq_getElem?_getD] at h
  cases hg : m.counters[c]? with
  | none => rw [hg] at h; exact absurd h (by simp)
  | some o =>
    rw [hg] at h
    simp only [Option.getD_some] at h
    subst h
    exact ⟨lt_length_of_getElem_eq_some hg, rfl⟩

theorem readCounter_writeCounter_self {m : Mem α} {c : Ptr} {n k : Nat}
    (h : m.readCounter c = some n) :
    (m.writeCounter c k).readCounter c = some k := by
  obtain ⟨hlt, -⟩ := readCounter_some h
  unfold Mem.readCounter Mem.writeCounter
  rw [List.getD_eq_getElem?_getD]
  simp [List.getElem?_set_self (by simpa using hlt)]

theorem readCounter_writeCounter_ne {m : Mem α} {c c' : Ptr} {k : Nat}
    (hne : c' ≠ c) :
    (m.writeCounter c k).readCounter c' = m.readCounter c' := by
  unfold Mem.readCounter Mem.writeCounter
  rw [List.getD_eq_getElem?_getD, List.getD_eq_getElem?_getD,
    List.getElem?_set_ne (fun he => hne he.symm)]

theorem getD_set_none_self (l : List (Option γ)) (p : Nat) :
    (l.set p none).getD p none = none := by
  rw [List.getD_eq_getElem?_getD]
  rcases Nat.lt_or_ge p l.length with hlt | hge
  · simp [List.getElem?_set_self (by simpa using hlt)]
  · rw [List.getElem?_eq_none (by simpa using hge)]
    rfl

/-- The duplication algorithm exactly as the specification words it
(section 4.1, Duplicate): if Unshared, allocate a new counter cell
initialized to 2 and transition this handle's share state to Shared of that
counter; if Shared, increment the counter by 1; in both cases return a new
handle with the same data handle and the same share state. -/
def cloneSpec (self : LazyRc) (m : Mem α) : Option (LazyRc × LazyRc × Mem α) :=
  match self.share_count with
  | none =>
    let alloc := m.allocCounter 2
    let self' : LazyRc := { self with share_count := some alloc.1 }
    some (self', { data := self'.data, share_count := self'.share_count },
          alloc.2)
  | some c =>
    match m.readCounter c with
    | some n =>
      some (self, { data := self.data, share_count := self.share_count },
            m.writeCounter c (n + 1))
    | none => none

/-- C3: Clone follows the specified algorithm (it coincides with the
spec-worded `cloneSpec`); moreover after any successful clone both handles
report Shared with the same data pointer, the same counter pointer and the
same dereferenced value, a fresh counter starts at 2 when the original was
Unshared, and an existing counter is incremented by 1 when it was Shared. -/
theorem spec_C3_clone_algorithm (self : LazyRc) (m : Mem α) :
    self.clone m = cloneSpec self m ∧
    ∀ a b m1, self.clone m = some (a, b, m1) →
      a.data = self.data ∧ b.data = self.data ∧
      a.share_count.isSome ∧ b.share_count = a.share_count ∧
      b.deref m1 = a.deref m1 ∧
      (self.share_count = none →
        a.share_count = some m.counters.length ∧
        m1.readCounter m.counters.length = some 2) ∧
      (∀ c n, self.share_count = some c → m.readCounter c = some n →
        a.share_count = some c ∧ m1.readCounter c = some (n + 1)) := by
  cases hsc : self.share_count with
  | none =>
    refine ⟨by simp [LazyRc.clone, cloneSpec, hsc], ?_⟩
    intro a b m1 hab
    simp only [LazyRc.clone, hsc, Mem.allocCounter, Option.some.injEq,
      Prod.mk.injEq] at hab
    obtain ⟨ha, hb, hm1⟩ := hab
    subst ha; subst hb; subst hm1
    refine ⟨rfl, rfl, rfl, rfl, rfl, ?_, ?_⟩
    · intro _
      refine ⟨rfl, ?_⟩
      simp [Mem.readCounter, List.getD_eq_getElem?_getD,
        List.getElem?_concat_length]
    · intro c n hcs
      exact absurd hcs (by simp)
  | some c0 =>
    cases hrd : m.readCounter c0 with
    | none =>
      refine ⟨by simp [LazyRc.clone, cloneSpec, hsc, hrd], ?_⟩
      intro a b m1 hab
      simp [LazyRc.clone, hsc, hrd] at hab
    | some n0 =>
      refine ⟨by simp [LazyRc.clone, cloneSpec, hsc, hrd], ?_⟩
      intro a b m1 hab
      simp only [LazyRc.clone, hsc, hrd, Option.some.injEq,
        Prod.mk.injEq] at hab
      obtain ⟨ha, hb, hm1⟩ := hab
      subst ha; subst hb; subst hm1
      refine ⟨rfl, rfl, ?_, ?_, rfl, ?_, ?_⟩
      · rw [hsc]; rfl
      · rw [hsc]
      · intro hcs
        exact absurd hcs (by simp)
      · intro c n hcs hrd2
        obtain rfl := Option.some.inj hcs
        rw [hrd] at hrd2
        obtain rfl := Option.some.inj hrd2
        exact ⟨hsc, readCounter_writeCounter_self hrd⟩

/-- An Unshared handle over slot 0, and a one-value heap for it. -/
def hU0 : LazyRc := { data := 0, share_count := none }

def mU0 : Mem Nat :=
  { data := [some 7], counters := [], dataDrops := 0, counterDrops := 0 }

/-- The handle and heap produced by duplicating `hU0` over `mU0`. -/
def hS1 : LazyRc := { data := 0, share_count := some 0 }

def mS1 : Mem Nat :=
  { data := [some 7], counters := [some 2], dataDrops := 0, counterDrops := 0 }

theorem spec_C3_clone_algorithm_witness :
    hU0.clone mU0 = some (hS1, hS1, mS1) ∧
    (hS1.data = hU0.data ∧ hS1.data = hU0.data ∧ hS1.share_count.isSome ∧
      hS1.share_count = hS1.share_count ∧ hS1.deref mS1 = hS1.deref mS1 ∧
      (hU0.share_count = none →
        hS1.share_count = some mU0.counters.length ∧
        mS1.readCounter mU0.counters.length = some 2) ∧
      (∀ c n, hU0.share_count = some c → mU0.readCounter c = some n →
        hS1.share_count = some c ∧ mS1.readCounter c = some (n + 1))) :=
  ⟨by decide, (spec_C3_clone_algorithm hU0 mU0).2 hS1 hS1 mS1 (by decide)⟩

/-- The destruction algorithm exactly as the specification words it
(section 4.1, Destroy): if Unshared, free the data and be done; if Shared,
read the count, decrement it when above 1, and when it is exactly 1 free the
counter allocation and then free the data. -/
def dropSpec (self : LazyRc) (m : Mem α) : Option (Mem α) :=
  match self.share_count with
  | none => m.freeData self.data
  | some c =>
    match m.readCounter c with
    | some n =>
      if n > 1 then some (m.writeCounter c (n - 1))
      else (m.freeCounter c).bind (fun m1 => m1.freeData self.data)
    | none => none

/-- C4: Drop follows the specified algorithm (it coincides with the
spec-worded `dropSpec`): an Unshared handle frees the data and nothing else;
a Shared handle with count above 1 decrements the counter and frees nothing;
a Shared handle with count exactly 1 frees the counter allocation and then
the data. -/
theorem spec_C4_drop_algorithm (self : LazyRc) (m : Mem α) :
    self.drop m = dropSpec self m ∧
    (∀ m1, self.share_count = none → self.drop m = some m1 →
      m1.dataDrops = m.dataDrops + 1 ∧ m1.readData self.data = none ∧
      m1.counters = m.counters ∧ m1.counterDrops = m.counterDrops) ∧
    (∀ c n m1, self.share_count = some c → m.readCounter c = some n → 1 < n →
      self.drop m = some m1 →
      m1.readCounter c = some (n - 1) ∧ m1.data = m.data ∧
      m1.dataDrops = m.dataDrops ∧ m1.counterDrops = m.counterDrops) ∧
    (∀ c m1, self.share_count = some c → m.readCounter c = some 1 →
      self.drop m = some m1 →
      m1.counterDrops = m.counterDrops + 1 ∧ m1.readCounter c = none ∧
      m1.dataDrops = m.dataDrops + 1 ∧ m1.readData self.data = none) := by
  refine ⟨?_, ?_, ?_, ?_⟩
  · cases hsc : self.share_count with
    | none => simp [LazyRc.drop, dropSpec, hsc]
    | some c =>
      cases hrd : m.readCounter c with
      | none => simp [LazyRc.drop, dropSpec, hsc, hrd]
      | some n =>
        by_cases h1 : n > 1
        · simp [LazyRc.drop, dropSpec, hsc, hrd, h1]
        · simp only [LazyRc.drop, dropSpec, hsc, hrd, if_neg h1]
          cases m.freeCounter c <;> rfl
  · intro m1 hsc hdrop
    simp only [LazyRc.drop, hsc, Mem.freeData] at hdrop
    cases hrd : m.readData self.data with
    | none => rw [hrd] at hdrop; exact absurd hdrop (by simp)
    | some w =>
      rw [hrd] at hdrop
      obtain rfl := Option.some.inj hdrop
      exact ⟨rfl, getD_set_none_self m.data self.data, rfl, rfl⟩
  · intro c n m1 hsc hrd h1 hdrop
    simp only [LazyRc.drop, hsc, hrd, if_pos h1] at hdrop
    obtain rfl := Option.some.inj hdrop
    exact ⟨readCounter_writeCounter_self hrd, rfl, rfl, rfl⟩
  · intro c m1 hsc hrd hdrop
    simp only [LazyRc.drop, hsc, hrd, if_neg (Nat.lt_irrefl 1),
      Mem.freeCounter, Mem.freeData] at hdrop
    cases hrd2 :
        ({ m with counters := m.counters.set c none,
                  counterDrops := m.counterDrops + 1 } : Mem α).readData
          self.data with
    | none => rw [hrd2] at hdrop; exact absurd hdrop (by simp)
    | some w =>
      rw [hrd2] at hdrop
      obtain rfl := Option.some.inj hdrop
      refine ⟨rfl, ?_, rfl, getD_set_none_self _ _⟩
      exact getD_set_none_self m.counters c

/-- The heap after `hS1`, one of two members with counter 2, is destroyed. -/
def mS1d : Mem Nat :=
  { data := [some 7], counters := [some 1], dataDrops := 0, counterDrops := 0 }

theorem spec_C4_drop_algorithm_witness :
    (hS1.share_count = some 0 ∧ mS1.readCounter 0 = some 2 ∧ (1:Nat) < 2 ∧
      hS1.drop mS1 = some mS1d) ∧
    (mS1d.readCounter 0 = some (2 - 1) ∧ mS1d.data = mS1.data ∧
      mS1d.dataDrops = mS1.dataDrops ∧ mS1d.counterDrops = mS1.counterDrops) :=
  ⟨⟨rfl, by decide, by decide, by decide⟩,
    (spec_C4_drop_algorithm hS1 mS1).2.2.1 0 2 mS1d rfl (by decide) (by decide)
      (by decide)⟩

/-- C7: Debug and Display formatting of a handle delegate to the wrapped
value: they agree with each other, produce exactly the output of the wrapped
type's own formatter applied to the dereferenced value, read no state other
than the wrapped value (two heaps agreeing on the wrapped slot format
identically), and write no state (they return only a formatter). -/
theorem spec_C7_fmt_passthrough (fmtT : α → Formatter → Option Formatter)
    (self : LazyRc) (m m2 : Mem α) (f : Formatter) :
    self.fmtDebug fmtT m f = self.fmtDisplay fmtT m f ∧
    (∀ w, self.deref m = some w →
      self.fmtDebug fmtT m f = fmtT w f ∧
      self.fmtDisplay fmtT m f = fmtT w f) ∧
    (m2.readData self.data = m.readData self.data →
      self.fmtDebug fmtT m2 f = self.fmtDebug fmtT m f ∧
      self.fmtDisplay fmtT m2 f = self.fmtDisplay fmtT m f) := by
  refine ⟨rfl, ?_, ?_⟩
  · intro w hw
    constructor <;> simp [LazyRc.fmtDebug, LazyRc.fmtDisplay, hw]
  · intro he
    constructor <;>
      simp [LazyRc.fmtDebug, LazyRc.fmtDisplay, LazyRc.deref, he]

/-- A formatter for `Nat`, standing in for the wrapped type's Debug/Display. -/
def natFmt : Nat → Formatter → Option Formatter :=
  fun w f => some { buf := f.buf ++ toString w }

theorem spec_C7_fmt_passthrough_witness :
    hU0.deref mU0 = some 7 ∧
    hU0.fmtDebug natFmt mU0 { buf := "" } = natFmt 7 { buf := "" } ∧
    hU0.fmtDisplay natFmt mU0 { buf := "" } = natFmt 7 { buf := "" } :=
  ⟨by decide,
    ((spec_C7_fmt_passthrough natFmt hU0 mU0 mU0 { buf := "" }).2.1 7
      (by decide)).1,
    ((spec_C7_fmt_passthrough natFmt hU0 mU0 mU0 { buf := "" }).2.1 7
      (by decide)).2⟩

/-- C9: round trips — dereferencing a freshly constructed handle yields the
boxed value; the Vec and String conversions preserve contents exactly. -/
theorem spec_C9_roundtrip (v : α) (m : Mem α) (w : RVec β)
    (mw : Mem (List β)) (t : RString) (mt : Mem String) :
    (newBoxed v m).1.deref (newBoxed v m).2 = some v ∧
    (fromVec w mw).1.deref (fromVec w mw).2 = some w.elems ∧
    (fromString t mt).1.deref (fromString t mt).2 = some t.chars := by
  refine ⟨?_, ?_, ?_⟩ <;>
    simp [newBoxed, fromVec, fromString, LazyRc.deref, Mem.readData,
      Mem.allocData, LazyRc.new, RVec.into_boxed_slice,
      RString.into_boxed_str, List.getD_eq_getElem?_getD,
      List.getElem?_concat_length]

/-- C8: the Shared state is absorbing per handle: a duplication step keeps
every pre-existing handle at its list position with the same data pointer
and, when it was already Shared with counter `c`, still Shared with the same
`c`; a destruction step removes exactly the destroyed handle and leaves
every surviving handle's record literally unchanged. -/
theorem spec_C8_shared_absorbing (s s' : Sys α) (i : Nat) :
    (s.cloneAt i = some s' →
      ∀ (j : Nat) (h : LazyRc), s.handles[j]? = some h →
        ∃ h' : LazyRc, s'.handles[j]? = some h' ∧ h'.data = h.data ∧
          ∀ c, h.share_count = some c → h'.share_count = some c) ∧
    (s.dropAt i = some s' → s'.handles = s.handles.eraseIdx i) := by
  constructor
  · intro hc j h hj
    unfold Sys.cloneAt at hc
    cases hget : s.handles[i]? with
    | none => rw [hget] at hc; exact absurd hc (by simp)
    | some h0 =>
      rw [hget] at hc
      have hjlt : j < s.handles.length := lt_length_of_getElem_eq_some hj
      have hilt : i < s.handles.length := lt_length_of_getElem_eq_some hget
      cases hsc : h0.share_count with
      | none =>
        simp only [LazyRc.clone, hsc, Mem.allocCounter] at hc
        obtain rfl := Option.some.inj hc
        by_cases hji : j = i
        · subst hji
          rw [hget] at hj
          obtain rfl := Option.some.inj hj
          refine ⟨{ data := h0.data, share_count := some s.mem.counters.length },
            ?_, rfl, ?_⟩
          · rw [List.getElem?_append_left (by simpa using hjlt),
              List.getElem?_set_self (by simpa using hjlt)]
          · intro c hcs
            rw [hsc] at hcs
            exact absurd hcs (by simp)
        · refine ⟨h, ?_, rfl, fun c hcs => hcs⟩
          rw [List.getElem?_append_left (by simpa using hjlt),
            List.getElem?_set_ne (fun he => hji he.symm), hj]
      | some c0 =>
        cases hrd : s.mem.readCounter c0 with
        | none => simp [LazyRc.clone, hsc, hrd] at hc
        | some n0 =>
          simp only [LazyRc.clone, hsc, hrd] at hc
          obtain rfl := Option.some.inj hc
          by_cases hji : j = i
          · subst hji
            rw [hget] at hj
            obtain rfl := Option.some.inj hj
            refine ⟨h0, ?_, rfl, fun c hcs => hcs⟩
            rw [List.getElem?_append_left (by simpa using hjlt),
              List.getElem?_set_self (by simpa using hjlt)]
          · refine ⟨h, ?_, rfl, fun c hcs => hcs⟩
            rw [List.getElem?_append_left (by simpa using hjlt),
              List.getElem?_set_ne (fun he => hji he.symm), hj]
  · intro hd
    unfold Sys.dropAt at hd
    cases hget : s.handles[i]? with
    | none => rw [hget] at hd; exact absurd hd (by simp)
    | some h0 =>
      simp only [hget] at hd
      cases hdr : h0.drop s.mem with
      | none => simp only [hdr] at hd; exact absurd hd (by simp)
      | some m1 =>
        simp only [hdr] at hd
        obtain rfl := (Option.some.inj hd)
        rfl

/-- The state `exShared` after a further duplication: three members, counter 3. -/
def exShared3 : Sys Nat :=
  { mem := { data := [some 37], counters := [some 3], dataDrops := 0,
             counterDrops := 0 },
    handles := [hS1, hS1, hS1], clones := 2, drops := 0 }

/-- The state `exShared` after one member is destroyed: one member left, counter 1. -/
def exSharedD1 : Sys Nat :=
  { mem := { data := [some 37], counters := [some 1], dataDrops := 0,
             counterDrops := 0 },
    handles := [hS1], clones := 1, drops := 1 }

theorem spec_C8_shared_absorbing_witness :
    (exShared.cloneAt 0 = some exShared3 ∧
      exShared.handles[1]? = some hS1 ∧
      (∃ h', exShared3.handles[1]? = some h' ∧ h'.data = hS1.data ∧
        ∀ c, hS1.share_count = some c → h'.share_count = some c)) ∧
    (exShared.dropAt 0 = some exSharedD1 ∧
      exSharedD1.handles = exShared.handles.eraseIdx 0) :=
  ⟨⟨by decide, by decide,
      (spec_C8_shared_absorbing exShared exShared3 0).1 (by decide) 1 hS1
        (by decide)⟩,
    ⟨by decide,
      (spec_C8_shared_absorbing exShared exSharedD1 0).2 (by decide)⟩⟩

/-- C10: duplicating an already-Shared handle changes only the value stored
in the shared counter cell (incrementing it): the step succeeds; every
pre-existing handle record, the original's included, is unchanged at its
position; the data heap and both destructor counters are untouched; the
shared cell now reads n+1; every other counter cell reads as before. -/
theorem spec_C10_clone_frame {s : Sys α} {i : Nat} {h : LazyRc} {c n : Nat}
    (hget : s.handles[i]? = some h) (hsc : h.share_count = some c)
    (hread : s.mem.readCounter c = some n) :
    ∃ s', s.cloneAt i = some s' ∧
      (∀ j, j < s.handles.length → s'.handles[j]? = s.handles[j]?) ∧
      s'.mem.data = s.mem.data ∧
      s'.mem.dataDrops = s.mem.dataDrops ∧
      s'.mem.counterDrops = s.mem.counterDrops ∧
      s'.mem.readCounter c = some (n + 1) ∧
      ∀ c', c' ≠ c → s'.mem.readCounter c' = s.mem.readCounter c' := by
  have hilt : i < s.handles.length := lt_length_of_getElem_eq_some hget
  refine ⟨{ mem := s.mem.writeCounter c (n + 1),
            handles := (s.handles.set i h) ++
              [{ data := h.data, share_count := some c }],
            clones := s.clones + 1, drops := s.drops }, ?_, ?_, rfl, rfl, rfl,
          readCounter_writeCounter_self hread,
          fun c' hne => readCounter_writeCounter_ne hne⟩
  · unfold Sys.cloneAt
    rw [hget]
    simp [LazyRc.clone, hsc, hread]
  · intro j hj
    rw [List.getElem?_append_left (by simpa using hj)]
    by_cases hji : j = i
    · subst hji
      rw [List.getElem?_set_self (by simpa using hj), hget]
    · rw [List.getElem?_set_ne (fun he => hji he.symm)]

theorem spec_C10_clone_frame_witness :
    (exShared.handles[0]? = some hS1 ∧ hS1.share_count = some 0 ∧
      exShared.mem.readCounter 0 = some 2) ∧
    (∃ s', exShared.cloneAt 0 = some s' ∧
      (∀ j, j < exShared.handles.length →
        s'.handles[j]? = exShared.handles[j]?) ∧
      s'.mem.data = exShared.mem.data ∧
      s'.mem.dataDrops = exShared.mem.dataDrops ∧
      s'.mem.counterDrops = exShared.mem.counterDrops ∧
      s'.mem.readCounter 0 = some (2 + 1) ∧
      ∀ c', c' ≠ 0 → s'.mem.readCounter c' = exShared.mem.readCounter c') :=
  ⟨⟨by decide, rfl, by decide⟩,
    @spec_C10_clone_frame Nat exShared 0 hS1 0 2 (by decide) rfl (by decide)⟩
